import Mathlib

/-!
Shallow embedding of the lumen-audio feature-extraction pipeline
(src/features/audio_transform.py, src/utils/utils_audio.py,
src/utils/utils_exceptions.py) and proofs about the behaviour of its
waveform utilities, shape normalizers, channel repeater, augmentation
application, transform factory and file-loading entry points.

Conventions of the embedding:
* numpy arrays / torch tensors are lists of rationals (1-D) or lists of
  rows of rationals (2-D); the numeric payload of external library calls
  (librosa feature extraction, torchvision resize, pretrained feature
  extractors, torch_audiomentations) is opaque per the specification, so
  those collaborators enter as function parameters whose documented
  shape contracts appear as hypotheses;
* randomness (uniform stretch rates, randint offsets, uniform masks,
  Gaussian noise) is passed in as explicit parameters, constrained in
  theorems to the support of the distribution the code draws from;
* a Python function that can raise maps to `Except PyExc`; a function
  whose body contains no raise and calls nothing that raises maps to a
  total function (or to `Except` with only `.ok` results, when the claim
  under scrutiny is about raising).
-/

/-- Python exceptions that the embedded code can surface. -/
inductive PyExc
  | typeError
  | unboundLocalError
  | unsupportedAudioTransforms
deriving DecidableEq, Repr

/-- Matrix: a 2-D array as a list of rows of rationals. -/
abbrev Mat : Type := List (List ℚ)

/-- Height of a matrix, numpy shape[0]. -/
def matH (m : Mat) : ℕ := m.length

/-- Width of a matrix, numpy shape[1], read off the first row. -/
def matW (m : Mat) : ℕ := (m.headD []).length

/-- Shape pair (shape[0], shape[1]). -/
def matShape (m : Mat) : ℕ × ℕ := (matH m, matW m)

/-- Row-length profile of a matrix; rectangular arrays have a constant one. -/
def rowProfile (m : Mat) : List ℕ := m.map List.length

/-- Rectangularity: every row has the width of the first row. -/
def matRect (m : Mat) : Prop := ∀ r ∈ m, r.length = matW m

instance (m : Mat) : Decidable (matRect m) := by
  unfold matRect
  infer_instance

/-- Mean of a 1-D array, torch.mean / np.mean on a vector. -/
def listMean (xs : List ℚ) : ℚ := xs.sum / (xs.length : ℚ)

/-- Per-position channel means: np.mean(rows, axis=0) of a (C, N) array,
torch.mean(rows, dim=0) of a (C, N) tensor. -/
def colMeans (rows : List (List ℚ)) : List ℚ :=
  (List.range (rows.headD []).length).map
    (fun j => ((rows.map (fun r => r.getD j 0)).sum) / ((rows.length : ℚ)))

/-- Torch tensor argument of stereo_to_mono: 1-D or 2-D, per the call contract. -/
inductive TorchTensor
  | vec (xs : List ℚ)
  | mat (rows : List (List ℚ))
deriving DecidableEq, Repr

/-- Numpy array argument of stereo_to_mono: 1-D or 2-D, per the call contract. -/
inductive NpArray
  | one (xs : List ℚ)
  | two (rows : List (List ℚ))
deriving DecidableEq, Repr

/-- stereo_to_mono, torch.Tensor branch (utils_audio.py lines 12-13):
torch.mean(audio, dim=0).unsqueeze(0). On a (C, N) tensor the mean over dim 0
is the vector of per-position channel means and unsqueeze yields a (1, N)
tensor; on a 1-D tensor the mean over dim 0 is the scalar mean of all samples
and unsqueeze yields the shape-(1,) tensor holding it. The body contains no
raise and no validation, so every result is ok. -/
def stereo_to_mono_torch : TorchTensor → Except PyExc TorchTensor
  | .vec xs => .ok (.vec [listMean xs])
  | .mat rows => .ok (.mat [colMeans rows])

/-- stereo_to_mono, np.ndarray branch (utils_audio.py lines 14-15):
librosa.to_mono, which averages the leading axes when ndim is larger than 1
and returns 1-D input unchanged; librosa performs no emptiness check (an empty
float 1-D array passes its validation), so every result is ok. -/
def stereo_to_mono_np : NpArray → Except PyExc NpArray
  | .one xs => .ok (.one xs)
  | .two rows => .ok (.one (colMeans rows))

/-- librosa.util.fix_length: truncate, or zero-pad at the end, to exactly
size samples. -/
def fix_length (xs : List ℚ) (size : ℕ) : List ℚ :=
  if size ≤ xs.length then xs.take size
  else xs ++ List.replicate (size - xs.length) 0

/-- time_stretch (utils_audio.py lines 18-44). The call
librosa.effects.time_stretch(y=audio, rate=stretch_rate) is an external
collaborator whose output is the parameter stretched (the drawn
stretch_rate = np.random.uniform(min_stretch, max_stretch) feeds only that
call). The draw offset = np.random.randint(0, diff + 1), with
diff = max(len(stretched) - len(audio), 0), is the parameter offset,
constrained in theorems to randint's support [0, diff]. With trim the code
drops offset samples and fixes the length back to len(audio). -/
def time_stretch (audio stretched : List ℚ) (offset : ℕ) (trim : Bool) : List ℚ :=
  if trim = false then stretched
  else fix_length (stretched.drop offset) audio.length

/-- load_audio_from_file (utils_audio.py lines 47-54). librosa.load and
torchaudio.load are external loaders passed in as parameters. The body is an
if/elif with no else: for any method other than "librosa" and "torch" neither
branch binds the local waveform, and the return line raises
UnboundLocalError. -/
def load_audio_from_file (librosaLoad : String → List ℚ × ℕ)
    (torchLoad : String → Bool → List ℚ × ℕ)
    (audio_path : String) (method : String) (normalize : Bool) :
    Except PyExc (List ℚ × ℕ) :=
  if method = "librosa" then .ok (librosaLoad audio_path)
  else if method = "torch" then .ok (torchLoad audio_path normalize)
  else .error .unboundLocalError

/-- Parameter names of load_audio_from_file (utils_audio.py lines 47-49). -/
def load_audio_from_file_param_names : List String :=
  ["audio_path", "method", "normalize"]

/-- Keyword arguments that AudioTransformBase.process_from_file passes to
load_audio_from_file (audio_transform.py lines 80-85), besides the positional
audio_file_path. -/
def process_from_file_keyword_args : List String :=
  ["method", "normalize", "target_sr"]

/-- Python keyword-call acceptance: every keyword argument must name a
parameter of the callee, otherwise the call raises TypeError before the
callee body runs. -/
def kwargsAccepted (params kwargs : List String) : Bool :=
  kwargs.all (fun k => params.contains k)

/-- AudioTransformBase.process_from_file (audio_transform.py lines 66-86):
calls load_audio_from_file(audio_file_path, method=..., normalize=...,
target_sr=self.sampling_rate) and then self.process on the loaded waveform.
The keyword call is checked against load_audio_from_file's parameter list
first, exactly as Python does; loaded stands for the pair the loader would
return and processF for the concrete pipeline's process method. -/
def process_from_file {α : Type} (loaded : List ℚ × ℕ) (processF : List ℚ → α) :
    Except PyExc α :=
  if kwargsAccepted load_audio_from_file_param_names process_from_file_keyword_args
  then .ok (processF loaded.1)
  else .error .typeError

/-- Modelled from the spec: the SupportedAugmentations enumeration lives in
src/features/supported_augmentations.py, which is not under src/; its members
are the ones named by the augmentation catalog of the spec and referenced by
audio_transform.py. -/
inductive SupportedAugmentations
  | TIME_STRETCH
  | PITCH
  | BANDPASS_FILTER
  | COLOR_NOISE
  | TIMEINV
  | FREQ_MASK
  | TIME_MASK
  | RANDOM_ERASE
  | RANDOM_PIXELS
deriving DecidableEq, Repr

/-- Modelled from the spec: the AudioTransforms enumeration lives in
src/features/supported_augmentations.py, which is not under src/; its members
are the variant identifiers of the closed variant set that the factory
get_audio_transform matches on. -/
inductive AudioTransforms
  | AST
  | MEL_SPECTROGRAM_FIXED_REPEAT
  | MEL_SPECTROGRAM_RESIZE_REPEAT
  | WAV2VEC
  | MFCC_FIXED_REPEAT
deriving DecidableEq, Repr

/-- Dynamic argument of the factory: a member of the AudioTransforms enum, or
any other Python value (which every identity check against an enum member
rejects). -/
inductive TransformArg
  | enum (v : AudioTransforms)
  | other (s : String)
deriving DecidableEq, Repr

/-- Pipeline classes the factory can construct (audio_transform.py). -/
inductive PipelineClass
  | audioTransformAST
  | melSpectrogramFixedRepeat
  | melSpectrogramResizedRepeat
  | audioTransformWav2Vec2
  | mfccFixedRepeat
deriving DecidableEq, Repr

/-- get_audio_transform (audio_transform.py lines 497-549): sequential
identity checks against the five enum members, each returning the
corresponding pipeline class; anything else falls through to
raise UnsupportedAudioTransforms. The error constructor carries no pipeline
object. -/
def get_audio_transform : TransformArg → Except PyExc PipelineClass
  | .enum .AST => .ok .audioTransformAST
  | .enum .MEL_SPECTROGRAM_FIXED_REPEAT => .ok .melSpectrogramFixedRepeat
  | .enum .MEL_SPECTROGRAM_RESIZE_REPEAT => .ok .melSpectrogramResizedRepeat
  | .enum .WAV2VEC => .ok .audioTransformWav2Vec2
  | .enum .MFCC_FIXED_REPEAT => .ok .mfccFixedRepeat
  | .other _ => .error .unsupportedAudioTransforms

/-- Correspondence between variant identifiers and constructed classes, read
off the factory's branches. -/
def pipelineClassOf : AudioTransforms → PipelineClass
  | .AST => .audioTransformAST
  | .MEL_SPECTROGRAM_FIXED_REPEAT => .melSpectrogramFixedRepeat
  | .MEL_SPECTROGRAM_RESIZE_REPEAT => .melSpectrogramResizedRepeat
  | .WAV2VEC => .audioTransformWav2Vec2
  | .MFCC_FIXED_REPEAT => .mfccFixedRepeat

/-- torch.tensor(spectrogram).split(w, dim=1) (audio_transform.py line 161 /
line 398): consecutive column blocks of width w; the number of blocks is the
ceiling of shape[1] / w and the last block is narrower when w does not divide
shape[1]. -/
def splitCols (w : ℕ) (m : Mat) : List Mat :=
  (List.range ((matW m + w - 1) / w)).map
    (fun i => m.map (fun r => (r.drop (i * w)).take w))

/-- chunk_padded = torch.zeros(size=seq_dim); chunk_padded[:w, :h] = chunk
(audio_transform.py lines 166-167 / 403-404): a zero buffer of the reference
shape with the chunk written top-left aligned. -/
def padTo (hw : ℕ × ℕ) (m : Mat) : Mat :=
  (List.range hw.1).map (fun i => (List.range hw.2).map (fun j => ((m.getD i []).getD j 0)))

/-- Chunked-pad normalizer body shared verbatim by MFCCFixed.process
(audio_transform.py lines 161-168) and MelSpectrogramFixed.process
(lines 398-405): split into reference-width column chunks and, when the width
is not an exact multiple of the reference width, replace the last chunk by
its zero-padded reference-shape buffer. -/
def makeChunks (seqDim : ℕ × ℕ) (m : Mat) : List Mat :=
  let chunks := splitCols seqDim.2 m
  if matW m % seqDim.2 ≠ 0 then
    chunks.dropLast ++ [padTo seqDim (chunks.getLastD [])]
  else chunks

/-- MFCCFixed.process (audio_transform.py lines 156-175): extract the MFCC
matrix (librosa.feature.mfcc, an external collaborator passed as extract,
lines 114-122), chunk-pad it to the cached reference shape seq_dim, and
resize every chunk to dim (torchvision F.resize with antialias, an external
collaborator passed as resize; the reshape(1, 1, *seq_dim) / [0][0] /
float32 cast bookkeeping around it does not change the 2-D payload). -/
def MFCCFixed.process (extract : List ℚ → Mat) (resize : ℕ × ℕ → Mat → Mat)
    (seqDim dim : ℕ × ℕ) (audio : List ℚ) : List Mat :=
  (makeChunks seqDim (extract audio)).map (fun c => resize dim c)

/-- MelSpectrogramFixed.process (audio_transform.py lines 393-412): same body
as MFCCFixed.process with librosa.feature.melspectrogram as the extractor. -/
def MelSpectrogramFixed.process (extract : List ℚ → Mat) (resize : ℕ × ℕ → Mat → Mat)
    (seqDim dim : ℕ × ℕ) (audio : List ℚ) : List Mat :=
  (makeChunks seqDim (extract audio)).map (fun c => resize dim c)

/-- MelSpectrogramResize.process (audio_transform.py lines 353-363): extract
the mel spectrogram, reshape to (1, 1, H0, W0), resize to dim and reshape to
(1, *dim): a single-channel stack holding one resized matrix. -/
def MelSpectrogramResize.process (extract : List ℚ → Mat)
    (resize : ℕ × ℕ → Mat → Mat) (dim : ℕ × ℕ) (audio : List ℚ) : List Mat :=
  [resize dim (extract audio)]

/-- x.repeat(1, r, 1, 1)[0] (audio_transform.py lines 194-196, 431-433,
453): torch views x as a 4-D (1, A, H, W) tensor (prepending singleton axes
as needed: a 2-D chunk has A = 1, a (1, H, W) stack has A = 1), tiles the
channel axis r times and selects index 0, yielding the channel list repeated
r times. -/
def torchRepeat_1r11 (r : ℕ) (t : List Mat) : List Mat :=
  (List.replicate r t).flatten

/-- MFCCFixedRepeat.process (audio_transform.py lines 188-198): runs
MFCCFixed.process and replaces each 2-D chunk c by c.repeat(1, repeat, 1,
1)[0], a (repeat, H, W) stack. -/
def MFCCFixedRepeat.process (extract : List ℚ → Mat) (resize : ℕ × ℕ → Mat → Mat)
    (seqDim dim : ℕ × ℕ) (rpt : ℕ) (audio : List ℚ) : List (List Mat) :=
  (MFCCFixed.process extract resize seqDim dim audio).map
    (fun c => torchRepeat_1r11 rpt [c])

/-- MelSpectrogramFixedRepeat.process (audio_transform.py lines 425-435):
same chunkwise channel repetition over MelSpectrogramFixed.process. -/
def MelSpectrogramFixedRepeat.process (extract : List ℚ → Mat)
    (resize : ℕ × ℕ → Mat → Mat) (seqDim dim : ℕ × ℕ) (rpt : ℕ)
    (audio : List ℚ) : List (List Mat) :=
  (MelSpectrogramFixed.process extract resize seqDim dim audio).map
    (fun c => torchRepeat_1r11 rpt [c])

/-- MelSpectrogramResizedRepeat.process (audio_transform.py lines 448-455):
runs MelSpectrogramResize.process, whose output is a (1, H, W) stack, and
applies spectrogram.repeat(1, repeat, 1, 1)[0]. -/
def MelSpectrogramResizedRepeat.process (extract : List ℚ → Mat)
    (resize : ℕ × ℕ → Mat → Mat) (dim : ℕ × ℕ) (rpt : ℕ)
    (audio : List ℚ) : List Mat :=
  torchRepeat_1r11 rpt (MelSpectrogramResize.process extract resize dim audio)

/-- AudioTransformWav2Vec2.process (audio_transform.py lines 473-491): when
TIME_STRETCH is among the augmentations, time-stretch with trim; then
librosa.util.fix_length to sampling_rate * 3 samples; then the pretrained
Wav2Vec2FeatureExtractor (external collaborator passed as extractor; its
(1, n) input_values output followed by squeeze(0) is a 1-D array). stretched
and offset are the randomness parameters of time_stretch as above. -/
def AudioTransformWav2Vec2.process (extractor : List ℚ → List ℚ)
    (augs : List SupportedAugmentations) (samplingRate : ℕ)
    (stretched : List ℚ) (offset : ℕ) (audio : List ℚ) : List ℚ :=
  let audio1 :=
    if SupportedAugmentations.TIME_STRETCH ∈ augs then
      time_stretch audio stretched offset true
    else audio
  extractor (fix_length audio1 (samplingRate * 3))

/-- Mean of all elements of a matrix, spectrogram.mean() (audio_transform.py
line 279). -/
def matMean (m : Mat) : ℚ := (m.map List.sum).sum / (((m.map List.length).sum : ℕ) : ℚ)

/-- Row worker for the random-pixel replacement: walks (uniform draw, value)
pairs, replacing the value by the k-th noise sample whenever the draw is
below the threshold p, threading the count k of masked elements seen so far
(torch assigns the noise vector to the masked positions in row-major
order). -/
def hrpRow (p : ℚ) (g : ℕ → ℚ) : List (ℚ × ℚ) → ℕ → List ℚ × ℕ
  | [], k => ([], k)
  | ux :: rest, k =>
    if ux.1 < p then
      let r := hrpRow p g rest (k + 1)
      (g k :: r.1, r.2)
    else
      let r := hrpRow p g rest k
      (ux.2 :: r.1, r.2)

/-- Matrix worker threading the masked-element count across rows. -/
def hrpMat (p : ℚ) (g : ℕ → ℚ) : List (List (ℚ × ℚ)) → ℕ → List (List ℚ)
  | [], _ => []
  | row :: rest, k =>
    let r := hrpRow p g row k
    r.1 :: hrpMat p g rest r.2

/-- Random-pixel-noise branch of apply_spec_augmentations (audio_transform.py
lines 272-284): mask = uniform draws < hide_random_pixels_p elementwise;
noise = torch.normal(mean=spectrogram.mean(), std=std_noise,
size=(mask.sum(),)); spectrogram[mask] = noise. The uniform draws enter as
the matrix u (each entry sampled from [0, 1)), and torch.normal enters as the
sampler gauss, with gauss mean std k the k-th sample drawn at that mean and
standard deviation. -/
def hideRandomPixels (p std : ℚ) (u : List (List ℚ)) (gauss : ℚ → ℚ → ℕ → ℚ)
    (m : Mat) : Mat :=
  hrpMat p (gauss (matMean m) std) (List.zipWith List.zip u m) 0

/-- apply_spec_augmentations (audio_transform.py lines 261-286): sequentially
applies frequency masking, time masking and random erasing (external
torchaudio / torchvision transforms passed as parameters) and the
random-pixel-noise replacement, each gated on membership in the requested
augmentation list. -/
def apply_spec_augmentations (augs : List SupportedAugmentations)
    (freqMask timeMask randErase : Mat → Mat) (p std : ℚ)
    (u : List (List ℚ)) (gauss : ℚ → ℚ → ℕ → ℚ) (sp : Mat) : Mat :=
  let sp1 := if SupportedAugmentations.FREQ_MASK ∈ augs then freqMask sp else sp
  let sp2 := if SupportedAugmentations.TIME_MASK ∈ augs then timeMask sp1 else sp1
  let sp3 := if SupportedAugmentations.RANDOM_ERASE ∈ augs then randErase sp2 else sp2
  if SupportedAugmentations.RANDOM_PIXELS ∈ augs then
    hideRandomPixels p std u gauss sp3
  else sp3

/-- AudioTransformAST.process (audio_transform.py lines 288-309): waveform
augmentations (apply_waveform_augmentations, lines 236-259, a chain of
external librosa / torch_audiomentations calls passed as waveAug), then the
pretrained ASTFeatureExtractor (external collaborator passed as extractor;
its constant-size (1, T, F) output is carried with the leading singleton
batch axis elided), then apply_spec_augmentations. -/
def AudioTransformAST.process (waveAug : List ℚ → List ℚ)
    (extractor : List ℚ → Mat) (augs : List SupportedAugmentations)
    (freqMask timeMask randErase : Mat → Mat) (p std : ℚ)
    (u : List (List ℚ)) (gauss : ℚ → ℚ → ℕ → ℚ) (audio : List ℚ) : Mat :=
  apply_spec_augmentations augs freqMask timeMask randErase p std u gauss
    (extractor (waveAug audio))

/-- Element of a matrix at row i, column j, with numpy's zero fill for
out-of-range positions of a padded buffer. -/
def matGet (m : Mat) (i j : ℕ) : ℚ := (m.getD i []).getD j 0

/-- Expected full-replacement result of the random-pixel augmentation at
threshold 1: a matrix of the input's shape whose entries are the Gaussian
samples consumed in row-major order starting at index k. -/
def gaussFillAux (g : ℕ → ℚ) : Mat → ℕ → Mat
  | [], _ => []
  | row :: rest, k =>
    (List.range row.length).map (fun j => g (k + j)) :: gaussFillAux g rest (k + row.length)

/-- Channel repetition of a single 2-D chunk is plain replication. -/
theorem torchRepeat_singleton (r : ℕ) (c : Mat) :
    torchRepeat_1r11 r [c] = List.replicate r c := by
  induction r with
  | zero => rfl
  | succ n ih =>
    simp only [torchRepeat_1r11, List.replicate_succ, List.flatten_cons] at ih ⊢
    simp [ih]

/-- C10: load_audio_from_file returns a (waveform, original sample rate) pair
exactly when the method argument is "librosa" or "torch"; for every other
method string it raises (the local waveform is never bound, so the return
line raises UnboundLocalError) instead of returning a value or raising a
documented error of the taxonomy. -/
theorem C10_load_audio_method_dichotomy (librosaLoad : String → List ℚ × ℕ)
    (torchLoad : String → Bool → List ℚ × ℕ) (path method : String)
    (normalize : Bool) :
    ((∃ r, load_audio_from_file librosaLoad torchLoad path method normalize
        = Except.ok r)
      ↔ (method = "librosa" ∨ method = "torch"))
    ∧ (method ≠ "librosa" → method ≠ "torch" →
        load_audio_from_file librosaLoad torchLoad path method normalize
          = Except.error PyExc.unboundLocalError) := by
  unfold load_audio_from_file
  by_cases h1 : method = "librosa" <;> by_cases h2 : method = "torch" <;>
    simp [h1, h2]

/-- C2, the code evaluated at the failing call: every invocation of
process_from_file raises TypeError, because the call passes the keyword
argument target_sr, which load_audio_from_file does not accept; the call
never reaches loading, resampling, or process. -/
theorem C2_process_from_file_always_type_errors {α : Type}
    (loaded : List ℚ × ℕ) (processF : List ℚ → α) :
    process_from_file loaded processF = Except.error PyExc.typeError := by
  rfl

/-- C3: the factory raises UnsupportedAudioTransforms for every identifier
outside the closed variant set, constructing no pipeline object (the error
result carries none), and returns the pipeline of the corresponding class for
every member of the set, without raising. -/
theorem C3_factory_closed_variant_set :
    (∀ s : String,
        get_audio_transform (TransformArg.other s)
          = Except.error PyExc.unsupportedAudioTransforms)
    ∧ (∀ v : AudioTransforms,
        get_audio_transform (TransformArg.enum v)
          = Except.ok (pipelineClassOf v)) := by
  refine ⟨fun s => rfl, fun v => ?_⟩
  cases v <;> rfl

/-- C5: time_stretch with trim returns exactly len(audio) samples for every
input waveform, every stretched signal the external stretch can produce (so
for every rate range, the degenerate equal-bounds range included), and every
offset in the support [0, max(stretched_len - original_len, 0)] of the
np.random.randint draw. -/
theorem C5_time_stretch_trim_length (audio stretched : List ℚ) (offset : ℕ)
    (hoff : offset ≤ max (stretched.length - audio.length) 0) :
    (time_stretch audio stretched offset true).length = audio.length := by
  show (fix_length (stretched.drop offset) audio.length).length = audio.length
  unfold fix_length
  split <;> rename_i h <;>
    simp only [List.length_take, List.length_append, List.length_replicate,
      List.length_drop] at h ⊢ <;>
    omega

/-- C5 witness at a concrete input. -/
theorem C5_time_stretch_trim_length_witness :
    1 ≤ max (([(1 : ℚ), 2, 3, 4].length) - ([(5 : ℚ), 6].length)) 0
    ∧ (time_stretch [(5 : ℚ), 6] [1, 2, 3, 4] 1 true).length
        = [(5 : ℚ), 6].length :=
  ⟨by decide, C5_time_stretch_trim_length [(5 : ℚ), 6] [1, 2, 3, 4] 1 (by decide)⟩

/-- C6 counterexample: on the zero-length 1-D numpy array, stereo_to_mono
returns the array unchanged rather than failing with any error; the claimed
InvalidInput validation does not exist in the code. -/
theorem C6_counterexample_empty_no_error :
    stereo_to_mono_np (NpArray.one []) = Except.ok (NpArray.one []) := rfl

/-- C6 amended: stereo_to_mono performs no emptiness validation; on a
zero-length array it raises nothing and returns a value (numpy branch: the
empty 1-D array unchanged; torch branch: a length-one tensor holding the
mean of no samples). -/
theorem C6_amended_no_empty_validation :
    stereo_to_mono_np (NpArray.one []) = Except.ok (NpArray.one [])
    ∧ ∃ x : ℚ, stereo_to_mono_torch (TorchTensor.vec [])
        = Except.ok (TorchTensor.vec [x]) :=
  ⟨rfl, ⟨listMean [], rfl⟩⟩

/-- C7 counterexample: the torch branch does not pass a 1-D input through
with an added leading axis; on the 1-D tensor [0, 2] it returns the
shape-(1,) overall-mean tensor [1], not the claimed 1-by-2 pass-through. -/
theorem C7_counterexample_torch_1d_not_passthrough :
    stereo_to_mono_torch (TorchTensor.vec [0, 2])
      ≠ Except.ok (TorchTensor.mat [[0, 2]]) := by
  intro h
  simp [stereo_to_mono_torch] at h

/-- Element access through a map over List.range. -/
theorem getD_map_range {α : Type} {f : ℕ → α} {n j : ℕ} (hj : j < n) {d : α} :
    ((List.range n).map f).getD j d = f j := by
  rw [List.getD_eq_getElem?_getD, List.getElem?_map, List.getElem?_range hj]
  rfl

/-- C7 amended: for 2-D input (channel axis first, non-empty) both branches
return the per-position channel means, the torch branch with an explicit
leading axis and the numpy branch as a 1-D array; a 1-D numpy input passes
through unchanged with no added axis, and a 1-D torch input is reduced to its
overall sample mean as a shape-(1,) tensor. -/
theorem C7_amended_channel_averaging (xs : List ℚ) (rows : List (List ℚ))
    (hne : rows ≠ []) :
    stereo_to_mono_np (NpArray.one xs) = Except.ok (NpArray.one xs)
    ∧ stereo_to_mono_np (NpArray.two rows)
        = Except.ok (NpArray.one (colMeans rows))
    ∧ stereo_to_mono_torch (TorchTensor.mat rows)
        = Except.ok (TorchTensor.mat [colMeans rows])
    ∧ stereo_to_mono_torch (TorchTensor.vec xs)
        = Except.ok (TorchTensor.vec [listMean xs])
    ∧ (colMeans rows).length = (rows.headD []).length
    ∧ ∀ j, j < (rows.headD []).length →
        (colMeans rows).getD j 0
          = ((rows.map (fun r => r.getD j 0)).sum) / ((rows.length : ℚ)) := by
  refine ⟨rfl, rfl, rfl, rfl, by simp [colMeans], ?_⟩
  intro j hj
  unfold colMeans
  rw [getD_map_range hj]

/-- C7 amended witness at concrete inputs. -/
theorem C7_amended_channel_averaging_witness :
    ([[ (0 : ℚ), 2], [2, 4]] : List (List ℚ)) ≠ []
    ∧ (stereo_to_mono_np (NpArray.one [(7 : ℚ)])
        = Except.ok (NpArray.one [(7 : ℚ)])
      ∧ stereo_to_mono_np (NpArray.two [[(0 : ℚ), 2], [2, 4]])
          = Except.ok (NpArray.one (colMeans [[(0 : ℚ), 2], [2, 4]]))
      ∧ stereo_to_mono_torch (TorchTensor.mat [[(0 : ℚ), 2], [2, 4]])
          = Except.ok (TorchTensor.mat [colMeans [[(0 : ℚ), 2], [2, 4]]])
      ∧ stereo_to_mono_torch (TorchTensor.vec [(7 : ℚ)])
          = Except.ok (TorchTensor.vec [listMean [(7 : ℚ)]])
      ∧ (colMeans [[(0 : ℚ), 2], [2, 4]]).length
          = (([[(0 : ℚ), 2], [2, 4]] : List (List ℚ)).headD []).length
      ∧ ∀ j, j < (([[(0 : ℚ), 2], [2, 4]] : List (List ℚ)).headD []).length →
          (colMeans [[(0 : ℚ), 2], [2, 4]]).getD j 0
            = ((([[(0 : ℚ), 2], [2, 4]] : List (List ℚ)).map
                (fun r => r.getD j 0)).sum)
              / ((([[(0 : ℚ), 2], [2, 4]] : List (List ℚ)).length : ℚ))) :=
  ⟨by decide,
    C7_amended_channel_averaging [(7 : ℚ)] [[(0 : ℚ), 2], [2, 4]] (by decide)⟩

/-- C9: channel repetition with n = 3 turns the (1, H, W) resized output into
a (3, H, W) stack whose three channel slices all equal the single input
channel, and applies the same replication to every member of a chunk list. -/
theorem C9_repeat_channels_triplicates (extract : List ℚ → Mat)
    (resize : ℕ × ℕ → Mat → Mat) (seqDim dim : ℕ × ℕ) (audio : List ℚ) :
    (MelSpectrogramResizedRepeat.process extract resize dim 3 audio
        = List.replicate 3 (resize dim (extract audio))
      ∧ (MelSpectrogramResizedRepeat.process extract resize dim 3 audio).length
          = 3
      ∧ ∀ c ∈ MelSpectrogramResizedRepeat.process extract resize dim 3 audio,
          c = (MelSpectrogramResize.process extract resize dim audio).headD [])
    ∧ (MFCCFixedRepeat.process extract resize seqDim dim 3 audio
        = (MFCCFixed.process extract resize seqDim dim audio).map
            (fun c => List.replicate 3 c)
      ∧ ∀ t ∈ MFCCFixedRepeat.process extract resize seqDim dim 3 audio,
          t.length = 3
          ∧ ∃ c ∈ MFCCFixed.process extract resize seqDim dim audio,
              ∀ s ∈ t, s = c) := by
  have hrep : MelSpectrogramResizedRepeat.process extract resize dim 3 audio
      = List.replicate 3 (resize dim (extract audio)) := by
    unfold MelSpectrogramResizedRepeat.process MelSpectrogramResize.process
    exact torchRepeat_singleton 3 (resize dim (extract audio))
  refine ⟨⟨hrep, by rw [hrep]; rfl, ?_⟩, ⟨?_, ?_⟩⟩
  · intro c hc
    rw [hrep] at hc
    have := List.eq_of_mem_replicate hc
    simp [MelSpectrogramResize.process, this]
  · unfold MFCCFixedRepeat.process
    apply List.map_congr_left
    intro c _
    exact torchRepeat_singleton 3 c
  · intro t ht
    unfold MFCCFixedRepeat.process at ht
    obtain ⟨c, hc, rfl⟩ := List.mem_map.mp ht
    rw [torchRepeat_singleton]
    exact ⟨by simp, c, hc, fun s hs => List.eq_of_mem_replicate hs⟩

/-- Ceiling division collapses to exact division when the remainder is 0. -/
theorem ceilDiv_of_mod_eq_zero {T w : ℕ} (hw : 0 < w) (h : T % w = 0) :
    (T + w - 1) / w = T / w := by
  obtain ⟨v, rfl⟩ : ∃ v, w = v + 1 := ⟨w - 1, by omega⟩
  have h1 : T + (v + 1) - 1 = T + v := by omega
  rw [h1]
  conv_lhs => rw [← Nat.div_add_mod T (v + 1)]
  rw [h, Nat.add_zero, Nat.mul_add_div hw,
    Nat.div_eq_of_lt (show v < v + 1 by omega), Nat.add_zero]

/-- Ceiling division is one more than exact division when the remainder is
nonzero. -/
theorem ceilDiv_of_mod_ne_zero {T w : ℕ} (hw : 0 < w) (h : T % w ≠ 0) :
    (T + w - 1) / w = T / w + 1 := by
  obtain ⟨v, rfl⟩ : ∃ v, w = v + 1 := ⟨w - 1, by omega⟩
  obtain ⟨k, hk⟩ : ∃ k, T % (v + 1) = k + 1 := ⟨T % (v + 1) - 1, by omega⟩
  have hlt := Nat.mod_lt T hw
  have h1 : T + (v + 1) - 1 = T + v := by omega
  rw [h1]
  conv_lhs => rw [← Nat.div_add_mod T (v + 1)]
  rw [hk]
  have h2 : (v + 1) * (T / (v + 1)) + (k + 1) + v
      = (v + 1) * (T / (v + 1)) + ((v + 1) * 1 + k) := by
    have h3 : k + 1 + v = (v + 1) * 1 + k := by ring
    omega
  rw [h2, Nat.mul_add_div hw, Nat.mul_add_div hw,
    Nat.div_eq_of_lt (show k < v + 1 by omega)]

/-- Ceiling of T / w, times w, is at least T. -/
theorem ceilDiv_mul_ge {T w : ℕ} (hw : 0 < w) : T ≤ ((T + w - 1) / w) * w := by
  have hdm := Nat.div_add_mod (T + w - 1) w
  have hlt := Nat.mod_lt (T + w - 1) hw
  have hc : w * ((T + w - 1) / w) = ((T + w - 1) / w) * w := by ring
  omega

/-- Full chunks below the exact quotient fit inside the matrix width. -/
theorem succ_mul_le_of_lt_div {T w i : ℕ} (h : i < T / w) : (i + 1) * w ≤ T :=
  le_trans (Nat.mul_le_mul_right w h) (Nat.div_mul_le_self T w)

/-- Number of chunks torch.split produces. -/
theorem splitCols_length (w : ℕ) (m : Mat) :
    (splitCols w m).length = (matW m + w - 1) / w := by
  simp [splitCols]

/-- With a nonzero remainder, the split is the full chunks followed by the
remainder chunk. -/
theorem splitCols_eq_concat {w : ℕ} {m : Mat} (hw : 0 < w)
    (h : matW m % w ≠ 0) :
    splitCols w m
      = (List.range (matW m / w)).map
          (fun i => m.map (fun r => (r.drop (i * w)).take w))
        ++ [m.map (fun r => (r.drop ((matW m / w) * w)).take w)] := by
  unfold splitCols
  rw [ceilDiv_of_mod_ne_zero hw h, List.range_succ, List.map_append]
  rfl

/-- Chunked-pad normalizer with nonzero remainder: full chunks plus the
zero-padded remainder chunk. -/
theorem makeChunks_of_mod_ne_zero {seqDim : ℕ × ℕ} {m : Mat}
    (hw : 0 < seqDim.2) (h : matW m % seqDim.2 ≠ 0) :
    makeChunks seqDim m
      = (List.range (matW m / seqDim.2)).map
          (fun i => m.map (fun r => (r.drop (i * seqDim.2)).take seqDim.2))
        ++ [padTo seqDim
            (m.map (fun r => (r.drop ((matW m / seqDim.2) * seqDim.2)).take seqDim.2))] := by
  simp only [makeChunks]
  rw [if_pos h, splitCols_eq_concat hw h, List.dropLast_concat, List.getLastD_concat]

/-- Chunked-pad normalizer with zero remainder: the plain split, no padding. -/
theorem makeChunks_of_mod_eq_zero {seqDim : ℕ × ℕ} {m : Mat}
    (h : matW m % seqDim.2 = 0) :
    makeChunks seqDim m = splitCols seqDim.2 m := by
  simp [makeChunks, h]

/-- Width of a full chunk. -/
theorem chunk_width_full {w : ℕ} {m : Mat} (hm : m ≠ []) {i : ℕ}
    (h : (i + 1) * w ≤ matW m) :
    matW (m.map (fun r => (r.drop (i * w)).take w)) = w := by
  obtain ⟨r, rest, rfl⟩ := List.exists_cons_of_ne_nil hm
  have h2 : i * w + w ≤ matW (r :: rest) := by
    calc i * w + w = (i + 1) * w := by ring
    _ ≤ matW (r :: rest) := h
  simp only [matW, List.headD_cons, List.map_cons, List.length_take,
    List.length_drop] at h2 ⊢
  omega

/-- Width of the remainder chunk produced by the split. -/
theorem chunk_width_rem {w : ℕ} {m : Mat} (hm : m ≠ []) (hw : 0 < w) :
    matW (m.map (fun r => (r.drop ((matW m / w) * w)).take w)) = matW m % w := by
  obtain ⟨r, rest, rfl⟩ := List.exists_cons_of_ne_nil hm
  have hdm := Nat.div_add_mod (matW (r :: rest)) w
  have hlt := Nat.mod_lt (matW (r :: rest)) hw
  have hc : w * (matW (r :: rest) / w) = (matW (r :: rest) / w) * w := by ring
  simp only [matW, List.headD_cons, List.map_cons, List.length_take,
    List.length_drop] at hdm hlt hc ⊢
  omega

/-- Row profile of the zero-padded buffer. -/
theorem padTo_rowProfile (hw : ℕ × ℕ) (m : Mat) :
    rowProfile (padTo hw m) = List.replicate hw.1 hw.2 := by
  refine List.eq_replicate_iff.mpr ⟨by simp [rowProfile, padTo], ?_⟩
  intro b hb
  simp only [rowProfile, padTo, List.map_map, List.mem_map] at hb
  obtain ⟨i, _, rfl⟩ := hb
  simp

/-- Width of the zero-padded buffer. -/
theorem padTo_matW {hw : ℕ × ℕ} (h : 0 < hw.1) (m : Mat) :
    matW (padTo hw m) = hw.2 := by
  obtain ⟨v, hv⟩ : ∃ v, hw.1 = v + 1 := ⟨hw.1 - 1, by omega⟩
  simp [padTo, matW, hv, List.range_succ_eq_map]

/-- Height of the zero-padded buffer. -/
theorem padTo_matH (hw : ℕ × ℕ) (m : Mat) : matH (padTo hw m) = hw.1 := by
  simp [padTo, matH]

/-- Entries of the zero-padded buffer agree with the padded matrix at
in-range positions (out-of-range positions of the source read as zero). -/
theorem padTo_get {hw : ℕ × ℕ} {m : Mat} {i j : ℕ} (hi : i < hw.1)
    (hj : j < hw.2) :
    matGet (padTo hw m) i j = matGet m i j := by
  unfold matGet padTo
  rw [getD_map_range hi, getD_map_range hj]

/-- Positions past a row's end read as the default. -/
theorem matGet_default {m : Mat} {i j : ℕ} (h : (m.getD i []).length ≤ j) :
    matGet m i j = 0 :=
  List.getD_eq_default _ _ h

/-- Element access through a map, in range. -/
theorem getD_map_of_lt {α β : Type} (f : α → β) {l : List α} {i : ℕ}
    (hi : i < l.length) (d : β) (d0 : α) :
    (l.map f).getD i d = f (l.getD i d0) := by
  rw [List.getD_eq_getElem?_getD, List.getElem?_map,
    List.getElem?_eq_getElem hi, List.getD_eq_getElem?_getD,
    List.getElem?_eq_getElem hi]
  rfl

/-- Reading inside a take-of-drop window hits the original list. -/
theorem take_drop_getD {r : List ℚ} {a wdt j : ℕ} (h1 : j < wdt)
    (h2 : a + j < r.length) :
    ((r.drop a).take wdt).getD j 0 = r.getD (a + j) 0 := by
  rw [List.getD_eq_getElem?_getD, List.getElem?_take, if_pos h1,
    List.getElem?_drop, List.getD_eq_getElem?_getD]

/-- Number of chunks the chunked-pad normalizer yields. -/
theorem makeChunks_length {seqDim : ℕ × ℕ} {m : Mat} (hw : 0 < seqDim.2) :
    (makeChunks seqDim m).length = (matW m + seqDim.2 - 1) / seqDim.2 := by
  by_cases h : matW m % seqDim.2 = 0
  · rw [makeChunks_of_mod_eq_zero h, splitCols_length]
  · rw [makeChunks_of_mod_ne_zero hw h]
    simp [ceilDiv_of_mod_ne_zero hw h]

/-- Every chunk the chunked-pad normalizer yields has the reference width. -/
theorem makeChunks_width {seqDim : ℕ × ℕ} {m : Mat} (hm : m ≠ [])
    (hw : 0 < seqDim.2) (hH : 0 < seqDim.1) :
    ∀ c ∈ makeChunks seqDim m, matW c = seqDim.2 := by
  intro c hc
  by_cases h : matW m % seqDim.2 = 0
  · rw [makeChunks_of_mod_eq_zero h] at hc
    unfold splitCols at hc
    rw [ceilDiv_of_mod_eq_zero hw h] at hc
    obtain ⟨i, hi, rfl⟩ := List.mem_map.mp hc
    exact chunk_width_full hm (succ_mul_le_of_lt_div (List.mem_range.mp hi))
  · rw [makeChunks_of_mod_ne_zero hw h] at hc
    rcases List.mem_append.mp hc with hc1 | hc2
    · obtain ⟨i, hi, rfl⟩ := List.mem_map.mp hc1
      exact chunk_width_full hm (succ_mul_le_of_lt_div (List.mem_range.mp hi))
    · rw [List.mem_singleton.mp hc2]
      exact padTo_matW hH _

/-- C4: for every feature matrix fed to the chunked-pad normalizer, the
chunks jointly cover at least the matrix's T time frames (the widths sum to
the chunk count times the reference width, which is at least T); when
T mod W_ref is nonzero the last chunk has full reference width, its columns
from T mod W_ref up to W_ref (exactly W_ref - T mod W_ref of them) are the
zero-padded region, and its earlier columns carry the original trailing
data; when W_ref divides T no padding is added (the split is returned as is)
and every chunk has width exactly W_ref. -/
theorem C4_chunked_pad_normalizer (seqDim : ℕ × ℕ) (m : Mat)
    (hrect : matRect m) (hm : m ≠ []) (hT : 0 < matW m)
    (hw : 0 < seqDim.2) (hH : 0 < seqDim.1) :
    (matW m ≤ ((makeChunks seqDim m).map matW).sum)
    ∧ (matW m % seqDim.2 ≠ 0 →
        matW ((makeChunks seqDim m).getLastD []) = seqDim.2
        ∧ (∀ i j, i < seqDim.1 → matW m % seqDim.2 ≤ j → j < seqDim.2 →
            matGet ((makeChunks seqDim m).getLastD []) i j = 0)
        ∧ (∀ i j, i < matH m → i < seqDim.1 → j < matW m % seqDim.2 →
            matGet ((makeChunks seqDim m).getLastD []) i j
              = matGet m i (matW m / seqDim.2 * seqDim.2 + j)))
    ∧ (matW m % seqDim.2 = 0 →
        makeChunks seqDim m = splitCols seqDim.2 m
        ∧ ∀ c ∈ makeChunks seqDim m, matW c = seqDim.2) := by
  refine ⟨?_, ?_, ?_⟩
  · have hall := @makeChunks_width seqDim m hm hw hH
    have hrep : (makeChunks seqDim m).map matW
        = List.replicate (makeChunks seqDim m).length seqDim.2 := by
      refine List.eq_replicate_iff.mpr ⟨by simp, ?_⟩
      intro b hb
      obtain ⟨c, hc, rfl⟩ := List.mem_map.mp hb
      exact hall c hc
    rw [hrep, List.sum_replicate, smul_eq_mul, makeChunks_length hw]
    exact ceilDiv_mul_ge hw
  · intro h
    have hlast : (makeChunks seqDim m).getLastD []
        = padTo seqDim
            (m.map (fun r => (r.drop (matW m / seqDim.2 * seqDim.2)).take seqDim.2)) := by
      rw [makeChunks_of_mod_ne_zero hw h, List.getLastD_concat]
    have hdm := Nat.div_add_mod (matW m) seqDim.2
    have hc : seqDim.2 * (matW m / seqDim.2) = matW m / seqDim.2 * seqDim.2 := by
      ring
    have hmlt := Nat.mod_lt (matW m) hw
    refine ⟨?_, ?_, ?_⟩
    · rw [hlast]
      exact padTo_matW hH _
    · intro i j hi hj1 hj2
      rw [hlast, padTo_get hi hj2]
      apply matGet_default
      by_cases him : i < m.length
      · rw [getD_map_of_lt _ him _ []]
        have hmem : m.getD i [] ∈ m := by
          rw [List.getD_eq_getElem _ _ him]
          exact List.getElem_mem him
        have hlen : (m.getD i []).length = matW m := hrect _ hmem
        simp only [List.length_take, List.length_drop, hlen]
        omega
      · rw [List.getD_eq_default]
        · simp
        · simp only [List.length_map]
          omega
    · intro i j him hi hjr
      rw [hlast, padTo_get hi (by omega)]
      unfold matGet
      rw [getD_map_of_lt _ him _ []]
      have hmem : m.getD i [] ∈ m := by
        rw [List.getD_eq_getElem _ _ him]
        exact List.getElem_mem him
      have hlen : (m.getD i []).length = matW m := hrect _ hmem
      exact take_drop_getD (by omega) (by omega)
  · intro h
    exact ⟨makeChunks_of_mod_eq_zero h, makeChunks_width hm hw hH⟩

/-- C4 witness at a concrete 1-by-3 matrix with reference width 2. -/
theorem C4_chunked_pad_normalizer_witness :
    matW [[(1 : ℚ), 2, 3]] ≤ ((makeChunks (1, 2) [[(1 : ℚ), 2, 3]]).map matW).sum
    ∧ matGet ((makeChunks (1, 2) [[(1 : ℚ), 2, 3]]).getLastD []) 0 1 = 0 :=
  ⟨(C4_chunked_pad_normalizer (1, 2) [[(1 : ℚ), 2, 3]] (by decide) (by decide)
      (by decide) (by decide) (by decide)).1,
   ((C4_chunked_pad_normalizer (1, 2) [[(1 : ℚ), 2, 3]] (by decide) (by decide)
      (by decide) (by decide) (by decide)).2.1 (by decide)).2.1 0 1 (by decide)
      (by decide) (by decide)⟩

/-- Row worker keeps the row length. -/
theorem hrpRow_fst_length (p : ℚ) (g : ℕ → ℚ) :
    ∀ (l : List (ℚ × ℚ)) (k : ℕ), (hrpRow p g l k).1.length = l.length := by
  intro l
  induction l with
  | nil => intro k; rfl
  | cons ux rest ih =>
    intro k
    unfold hrpRow
    by_cases h : ux.1 < p
    · simp [h, ih]
    · simp [h, ih]

/-- Matrix worker keeps the row-length profile. -/
theorem hrpMat_map_length (p : ℚ) (g : ℕ → ℚ) :
    ∀ (rows : List (List (ℚ × ℚ))) (k : ℕ),
      (hrpMat p g rows k).map List.length = rows.map List.length := by
  intro rows
  induction rows with
  | nil => intro k; rfl
  | cons row rest ih =>
    intro k
    unfold hrpMat
    simp [hrpRow_fst_length, ih]

/-- Pairing the draw matrix with an equal-profile matrix keeps the profile. -/
theorem zipWith_zip_map_length :
    ∀ (u m : Mat), u.map List.length = m.map List.length →
      (List.zipWith List.zip u m).map List.length = m.map List.length := by
  intro u
  induction u with
  | nil =>
    intro m h
    cases m with
    | nil => rfl
    | cons mr mrest => simp at h
  | cons ur urest ih =>
    intro m h
    cases m with
    | nil => simp at h
    | cons mr mrest =>
      simp only [List.map_cons, List.cons.injEq] at h
      simp [List.length_zip, h.1, ih mrest h.2]

/-- When no draw in a row is below the threshold, the row is unchanged and
the counter does not advance. -/
theorem hrpRow_none (p : ℚ) (g : ℕ → ℚ) :
    ∀ (ur mr : List ℚ) (k : ℕ), ur.length = mr.length →
      (∀ x ∈ ur, ¬ x < p) → hrpRow p g (ur.zip mr) k = (mr, k) := by
  intro ur
  induction ur with
  | nil =>
    intro mr k h _
    cases mr with
    | nil => rfl
    | cons y mrest => simp at h
  | cons x urest ih =>
    intro mr k h hu
    cases mr with
    | nil => simp at h
    | cons y mrest =>
      simp only [List.zip_cons_cons]
      unfold hrpRow
      rw [if_neg (hu x (by simp))]
      simp only [List.length_cons, Nat.add_right_cancel_iff] at h
      rw [ih mrest k h (fun z hz => hu z (by simp [hz]))]

/-- When no draw in the matrix is below the threshold, the matrix is
unchanged. -/
theorem hrpMat_none (p : ℚ) (g : ℕ → ℚ) :
    ∀ (u m : Mat) (k : ℕ), u.map List.length = m.map List.length →
      (∀ row ∈ u, ∀ x ∈ row, ¬ x < p) →
      hrpMat p g (List.zipWith List.zip u m) k = m := by
  intro u
  induction u with
  | nil =>
    intro m k h _
    cases m with
    | nil => rfl
    | cons mr mrest => simp at h
  | cons ur urest ih =>
    intro m k h hu
    cases m with
    | nil => simp at h
    | cons mr mrest =>
      simp only [List.map_cons, List.cons.injEq] at h
      simp only [List.zipWith_cons_cons]
      unfold hrpMat
      rw [hrpRow_none p g ur mr k h.1 (hu ur (by simp))]
      show mr :: hrpMat p g (List.zipWith List.zip urest mrest) k = mr :: mrest
      rw [ih mrest k h.2 (fun row hr => hu row (by simp [hr]))]

/-- When every draw in a row is below the threshold, the whole row is
replaced by consecutive noise samples and the counter advances by the row
length. -/
theorem hrpRow_all (p : ℚ) (g : ℕ → ℚ) :
    ∀ (ur mr : List ℚ) (k : ℕ), ur.length = mr.length →
      (∀ x ∈ ur, x < p) →
      hrpRow p g (ur.zip mr) k
        = ((List.range mr.length).map (fun j => g (k + j)), k + mr.length) := by
  intro ur
  induction ur with
  | nil =>
    intro mr k h _
    cases mr with
    | nil => rfl
    | cons y mrest => simp at h
  | cons x urest ih =>
    intro mr k h hu
    cases mr with
    | nil => simp at h
    | cons y mrest =>
      simp only [List.zip_cons_cons]
      unfold hrpRow
      rw [if_pos (hu x (by simp))]
      simp only [List.length_cons, Nat.add_right_cancel_iff] at h
      rw [ih mrest (k + 1) h (fun z hz => hu z (by simp [hz]))]
      refine Prod.ext ?_ (by simp; omega)
      show g k :: (List.range mrest.length).map (fun j => g (k + 1 + j))
          = (List.range (mrest.length + 1)).map (fun j => g (k + j))
      rw [List.range_succ_eq_map, List.map_cons, List.map_map]
      refine List.cons_eq_cons.mpr ⟨by simp, ?_⟩
      refine List.map_congr_left ?_
      intro j _
      show g (k + 1 + j) = g (k + (j + 1))
      exact congrArg g (by omega)

/-- When every draw in the matrix is below the threshold, the whole matrix is
replaced by row-major consecutive noise samples. -/
theorem hrpMat_all (p : ℚ) (g : ℕ → ℚ) :
    ∀ (u m : Mat) (k : ℕ), u.map List.length = m.map List.length →
      (∀ row ∈ u, ∀ x ∈ row, x < p) →
      hrpMat p g (List.zipWith List.zip u m) k = gaussFillAux g m k := by
  intro u
  induction u with
  | nil =>
    intro m k h _
    cases m with
    | nil => rfl
    | cons mr mrest => simp at h
  | cons ur urest ih =>
    intro m k h hu
    cases m with
    | nil => simp at h
    | cons mr mrest =>
      simp only [List.map_cons, List.cons.injEq] at h
      simp only [List.zipWith_cons_cons]
      unfold hrpMat
      rw [hrpRow_all p g ur mr k h.1 (hu ur (by simp))]
      show (List.range mr.length).map (fun j => g (k + j))
            :: hrpMat p g (List.zipWith List.zip urest mrest) (k + mr.length)
          = gaussFillAux g (mr :: mrest) k
      rw [ih mrest (k + mr.length) h.2 (fun row hr => hu row (by simp [hr]))]
      rfl

/-- Random-pixel replacement at threshold 0: draws in [0, 1) never fall below
0, so the feature matrix is unchanged. -/
theorem hideRandomPixels_zero (std : ℚ) (u : Mat) (gauss : ℚ → ℚ → ℕ → ℚ)
    (m : Mat) (hprof : rowProfile u = rowProfile m)
    (hu : ∀ row ∈ u, ∀ x ∈ row, 0 ≤ x) :
    hideRandomPixels 0 std u gauss m = m := by
  unfold hideRandomPixels
  exact hrpMat_none 0 _ u m 0 hprof
    (fun row hr x hx => not_lt.mpr (hu row hr x hx))

/-- Random-pixel replacement at threshold 1: draws in [0, 1) always fall
below 1, so every element is replaced by a Gaussian sample drawn at the
feature mean and the configured standard deviation, in row-major order. -/
theorem hideRandomPixels_one (std : ℚ) (u : Mat) (gauss : ℚ → ℚ → ℕ → ℚ)
    (m : Mat) (hprof : rowProfile u = rowProfile m)
    (hu : ∀ row ∈ u, ∀ x ∈ row, x < 1) :
    hideRandomPixels 1 std u gauss m = gaussFillAux (gauss (matMean m) std) m 0 := by
  unfold hideRandomPixels
  exact hrpMat_all 1 _ u m 0 hprof hu

/-- Random-pixel replacement keeps the row-length profile. -/
theorem hideRandomPixels_map_length (p std : ℚ) (u : Mat)
    (gauss : ℚ → ℚ → ℕ → ℚ) (m : Mat)
    (hprof : rowProfile u = rowProfile m) :
    rowProfile (hideRandomPixels p std u gauss m) = rowProfile m := by
  unfold hideRandomPixels rowProfile at *
  rw [hrpMat_map_length, zipWith_zip_map_length u m hprof]

/-- C8: with only the random-pixel-noise augmentation requested and uniform
draws from its [0, 1) support, hide_random_pixels_p = 0 leaves every element
of the feature matrix unchanged, and hide_random_pixels_p = 1 replaces every
element by a Gaussian sample drawn at mean equal to the current feature mean
and standard deviation std_noise, consumed in row-major order. -/
theorem C8_random_pixel_noise (freqMask timeMask randErase : Mat → Mat)
    (std : ℚ) (u : List (List ℚ)) (gauss : ℚ → ℚ → ℕ → ℚ) (sp : Mat)
    (hprof : rowProfile u = rowProfile sp) :
    ((∀ row ∈ u, ∀ x ∈ row, 0 ≤ x) →
      apply_spec_augmentations [SupportedAugmentations.RANDOM_PIXELS]
        freqMask timeMask randErase 0 std u gauss sp = sp)
    ∧ ((∀ row ∈ u, ∀ x ∈ row, x < 1) →
      apply_spec_augmentations [SupportedAugmentations.RANDOM_PIXELS]
        freqMask timeMask randErase 1 std u gauss sp
        = gaussFillAux (gauss (matMean sp) std) sp 0) := by
  constructor
  · intro hu
    show hideRandomPixels 0 std u gauss sp = sp
    exact hideRandomPixels_zero std u gauss sp hprof hu
  · intro hu
    show hideRandomPixels 1 std u gauss sp
        = gaussFillAux (gauss (matMean sp) std) sp 0
    exact hideRandomPixels_one std u gauss sp hprof hu

/-- C8 witness at a concrete 1-by-2 feature matrix. -/
theorem C8_random_pixel_noise_witness :
    apply_spec_augmentations [SupportedAugmentations.RANDOM_PIXELS]
      id id id 0 1 [[0, 0]] (fun _ _ k => (k : ℚ)) [[5, 7]] = [[5, 7]]
    ∧ apply_spec_augmentations [SupportedAugmentations.RANDOM_PIXELS]
      id id id 1 1 [[0, 0]] (fun _ _ k => (k : ℚ)) [[5, 7]]
        = gaussFillAux
            ((fun (e s : ℚ) (k : ℕ) => (k : ℚ)) (matMean [[5, 7]]) 1) [[5, 7]] 0 :=
  ⟨(C8_random_pixel_noise id id id 1 [[0, 0]]
      (fun _ _ k => (k : ℚ)) [[5, 7]] (by decide)).1 (by decide),
   (C8_random_pixel_noise id id id 1 [[0, 0]]
      (fun _ _ k => (k : ℚ)) [[5, 7]] (by decide)).2 (by decide)⟩

/-- fix_length output always has exactly the requested size. -/
theorem fix_length_length (xs : List ℚ) (n : ℕ) : (fix_length xs n).length = n := by
  unfold fix_length
  split <;> rename_i h
  · simp only [List.length_take]
    omega
  · simp only [List.length_append, List.length_replicate]
    omega

/-- Profile preservation through a conditionally applied transform. -/
theorem rowProfile_ite (c : Prop) [Decidable c] (f : Mat → Mat) (x : Mat)
    (hf : rowProfile (f x) = rowProfile x) :
    rowProfile (if c then f x else x) = rowProfile x := by
  split
  · exact hf
  · rfl

/-- The chunked-pad normalizer always yields at least one chunk. -/
theorem makeChunks_ne_nil {seqDim : ℕ × ℕ} {m : Mat} (hw : 0 < seqDim.2)
    (hT : 0 < matW m) : makeChunks seqDim m ≠ [] := by
  have hl := @makeChunks_length seqDim m hw
  intro h
  rw [h] at hl
  simp only [List.length_nil] at hl
  have h1 := (Nat.one_le_div_iff hw).mpr
    (show seqDim.2 ≤ matW m + seqDim.2 - 1 by omega)
  omega

/-- Augmentation application keeps the row-length profile, given the
external masking transforms keep it and the uniform-draw matrix matches the
spectrogram's profile. -/
theorem apply_spec_augmentations_map_length
    (augs : List SupportedAugmentations)
    (freqMask timeMask randErase : Mat → Mat) (p std : ℚ)
    (u : List (List ℚ)) (gauss : ℚ → ℚ → ℕ → ℚ) (sp : Mat)
    (hfm : ∀ x, rowProfile (freqMask x) = rowProfile x)
    (htm : ∀ x, rowProfile (timeMask x) = rowProfile x)
    (hre : ∀ x, rowProfile (randErase x) = rowProfile x)
    (hu : rowProfile u = rowProfile sp) :
    rowProfile
        (apply_spec_augmentations augs freqMask timeMask randErase p std u gauss sp)
      = rowProfile sp := by
  have e1 := rowProfile_ite (SupportedAugmentations.FREQ_MASK ∈ augs) freqMask sp
    (hfm sp)
  simp only [apply_spec_augmentations]
  generalize hA : (if SupportedAugmentations.FREQ_MASK ∈ augs then freqMask sp else sp) = A at e1 ⊢
  have e2 := rowProfile_ite (SupportedAugmentations.TIME_MASK ∈ augs) timeMask A
    (htm A)
  generalize hB : (if SupportedAugmentations.TIME_MASK ∈ augs then timeMask A else A) = B at e2 ⊢
  have e3 := rowProfile_ite (SupportedAugmentations.RANDOM_ERASE ∈ augs) randErase B
    (hre B)
  generalize hC : (if SupportedAugmentations.RANDOM_ERASE ∈ augs then randErase B else B) = C at e3 ⊢
  have hCp : rowProfile C = rowProfile sp := by rw [e3, e2, e1]
  split
  · rw [hideRandomPixels_map_length p std u gauss C (by rw [hu, hCp]), hCp]
  · exact hCp

/-- C1: for every input waveform whatever its length, every pipeline
variant's process returns output whose dimensions are fixed by the pipeline
configuration alone: the chunked-pad variants yield a non-empty chunk list
whose members all have the configured (H, W) — and (3, H, W) stacks for
their channel-repeat versions; the resize variant yields a (1, H, W) output
and its repeat version (3, H, W); the wav2vec2 variant yields exactly
sampling_rate * 3 samples; and the AST variant yields the pretrained
extractor's fixed spectrogram shape. The hypotheses are the documented
contracts of the external collaborators: resize returns the requested size,
the librosa extractors return 1 + len/hop time frames, the wav2vec2
extractor is length preserving, the AST extractor emits a constant shape,
the masking transforms are shape preserving, and the uniform-draw matrix is
drawn at the spectrogram shape. -/
theorem C1_process_output_dims_are_configured
    (extractMfcc extractMel : List ℚ → Mat) (resize : ℕ × ℕ → Mat → Mat)
    (w2vExtractor : List ℚ → List ℚ) (astWaveAug : List ℚ → List ℚ)
    (astExtractor : List ℚ → Mat) (freqMask timeMask randErase : Mat → Mat)
    (augs : List SupportedAugmentations)
    (seqDimMfcc seqDimMel dim : ℕ × ℕ)
    (samplingRate hopMfcc hopMel astH astW : ℕ)
    (p std : ℚ) (u : List (List ℚ)) (gauss : ℚ → ℚ → ℕ → ℚ)
    (stretched : List ℚ) (offset : ℕ) (audio : List ℚ)
    (hres : ∀ c, matShape (resize dim c) = dim)
    (hwM : 0 < seqDimMfcc.2) (hwMel : 0 < seqDimMel.2)
    (hextM : ∀ a, matW (extractMfcc a) = 1 + a.length / hopMfcc)
    (hextMel : ∀ a, matW (extractMel a) = 1 + a.length / hopMel)
    (hw2v : ∀ a, (w2vExtractor a).length = a.length)
    (hast : ∀ a, rowProfile (astExtractor a) = List.replicate astH astW)
    (hfm : ∀ x, rowProfile (freqMask x) = rowProfile x)
    (htm : ∀ x, rowProfile (timeMask x) = rowProfile x)
    (hre : ∀ x, rowProfile (randErase x) = rowProfile x)
    (hu : rowProfile u = List.replicate astH astW) :
    ((∀ c ∈ MFCCFixed.process extractMfcc resize seqDimMfcc dim audio,
        matShape c = dim)
      ∧ MFCCFixed.process extractMfcc resize seqDimMfcc dim audio ≠ [])
    ∧ (∀ t ∈ MFCCFixedRepeat.process extractMfcc resize seqDimMfcc dim 3 audio,
        t.length = 3 ∧ ∀ c ∈ t, matShape c = dim)
    ∧ ((∀ c ∈ MelSpectrogramFixed.process extractMel resize seqDimMel dim audio,
        matShape c = dim)
      ∧ MelSpectrogramFixed.process extractMel resize seqDimMel dim audio ≠ [])
    ∧ (∀ t ∈ MelSpectrogramFixedRepeat.process extractMel resize seqDimMel dim 3 audio,
        t.length = 3 ∧ ∀ c ∈ t, matShape c = dim)
    ∧ ((MelSpectrogramResize.process extractMel resize dim audio).length = 1
      ∧ ∀ c ∈ MelSpectrogramResize.process extractMel resize dim audio,
          matShape c = dim)
    ∧ ((MelSpectrogramResizedRepeat.process extractMel resize dim 3 audio).length = 3
      ∧ ∀ c ∈ MelSpectrogramResizedRepeat.process extractMel resize dim 3 audio,
          matShape c = dim)
    ∧ (AudioTransformWav2Vec2.process w2vExtractor augs samplingRate stretched
        offset audio).length = samplingRate * 3
    ∧ rowProfile (AudioTransformAST.process astWaveAug astExtractor augs
        freqMask timeMask randErase p std u gauss audio)
      = List.replicate astH astW := by
  have hMfcc : ∀ c ∈ MFCCFixed.process extractMfcc resize seqDimMfcc dim audio,
      matShape c = dim := by
    intro c hc
    obtain ⟨c0, _, rfl⟩ := List.mem_map.mp hc
    exact hres c0
  have hMfccNe : MFCCFixed.process extractMfcc resize seqDimMfcc dim audio ≠ [] := by
    unfold MFCCFixed.process
    intro h
    exact makeChunks_ne_nil hwM (by rw [hextM]; exact Nat.add_pos_left Nat.one_pos _) (List.map_eq_nil_iff.mp h)
  have hMel : ∀ c ∈ MelSpectrogramFixed.process extractMel resize seqDimMel dim audio,
      matShape c = dim := by
    intro c hc
    obtain ⟨c0, _, rfl⟩ := List.mem_map.mp hc
    exact hres c0
  have hMelNe : MelSpectrogramFixed.process extractMel resize seqDimMel dim audio ≠ [] := by
    unfold MelSpectrogramFixed.process
    intro h
    exact makeChunks_ne_nil hwMel (by rw [hextMel]; exact Nat.add_pos_left Nat.one_pos _) (List.map_eq_nil_iff.mp h)
  refine ⟨⟨hMfcc, hMfccNe⟩, ?_, ⟨hMel, hMelNe⟩, ?_, ⟨rfl, ?_⟩, ⟨?_, ?_⟩, ?_, ?_⟩
  · intro t ht
    obtain ⟨c, hc, rfl⟩ := List.mem_map.mp ht
    rw [torchRepeat_singleton]
    exact ⟨by simp, fun s hs => by rw [List.eq_of_mem_replicate hs]; exact hMfcc c hc⟩
  · intro t ht
    obtain ⟨c, hc, rfl⟩ := List.mem_map.mp ht
    rw [torchRepeat_singleton]
    exact ⟨by simp, fun s hs => by rw [List.eq_of_mem_replicate hs]; exact hMel c hc⟩
  · intro c hc
    rw [List.mem_singleton.mp hc]
    exact hres _
  · show (torchRepeat_1r11 3 (MelSpectrogramResize.process extractMel resize dim audio)).length = 3
    unfold MelSpectrogramResize.process
    rw [torchRepeat_singleton]
    rfl
  · intro c hc
    unfold MelSpectrogramResizedRepeat.process MelSpectrogramResize.process at hc
    rw [torchRepeat_singleton] at hc
    rw [List.eq_of_mem_replicate hc]
    exact hres _
  · unfold AudioTransformWav2Vec2.process
    rw [hw2v, fix_length_length]
  · unfold AudioTransformAST.process
    rw [apply_spec_augmentations_map_length augs freqMask timeMask randErase p std
      u gauss _ hfm htm hre (by rw [hu, hast]), hast]

/-- C1 witness at concrete collaborators and a concrete waveform. -/
theorem C1_process_output_dims_are_configured_witness :
    (∀ c ∈ MFCCFixed.process (fun a => [List.replicate (1 + a.length) 0])
        (fun _ _ => [[0]]) (1, 1) (1, 1) [0, 0], matShape c = (1, 1))
    ∧ (AudioTransformWav2Vec2.process id [] 1 [] 0 [0, 0]).length = 1 * 3
    ∧ rowProfile (AudioTransformAST.process id (fun _ => [[0]]) [] id id id 0 0
        [[0]] (fun _ _ _ => 0) [0, 0]) = List.replicate 1 1 := by
  have h := C1_process_output_dims_are_configured
    (fun a => [List.replicate (1 + a.length) 0])
    (fun a => [List.replicate (1 + a.length) 0])
    (fun _ _ => [[0]]) id id (fun _ => [[0]]) id id id []
    (1, 1) (1, 1) (1, 1) 1 1 1 1 1 0 0 [[0]] (fun _ _ _ => 0) [] 0 [0, 0]
    (fun c => rfl) (by decide) (by decide)
    (fun a => by simp [matW]) (fun a => by simp [matW])
    (fun a => rfl) (fun a => rfl) (fun x => rfl) (fun x => rfl) (fun x => rfl)
    rfl
  exact ⟨h.1.1, h.2.2.2.2.2.2.1, h.2.2.2.2.2.2.2⟩

/-- C10 witness at a concrete unsupported method string. -/
theorem C10_load_audio_method_dichotomy_witness :
    ((∃ r, load_audio_from_file (fun _ => ([], 0)) (fun _ _ => ([], 0))
        "a.wav" "scipy" true = Except.ok r)
      ↔ ("scipy" = "librosa" ∨ "scipy" = "torch"))
    ∧ ("scipy" ≠ "librosa" → "scipy" ≠ "torch" →
        load_audio_from_file (fun _ => ([], 0)) (fun _ _ => ([], 0))
          "a.wav" "scipy" true = Except.error PyExc.unboundLocalError) :=
  C10_load_audio_method_dichotomy (fun _ => ([], 0)) (fun _ _ => ([], 0))
    "a.wav" "scipy" true

/-- C3 witness at a concrete unknown identifier and a concrete variant. -/
theorem C3_factory_closed_variant_set_witness :
    get_audio_transform (TransformArg.other "bogus")
      = Except.error PyExc.unsupportedAudioTransforms
    ∧ get_audio_transform (TransformArg.enum AudioTransforms.WAV2VEC)
      = Except.ok (pipelineClassOf AudioTransforms.WAV2VEC) :=
  ⟨C3_factory_closed_variant_set.1 "bogus",
   C3_factory_closed_variant_set.2 AudioTransforms.WAV2VEC⟩

/-- C9 witness at a concrete one-pixel feature and identity resize. -/
theorem C9_repeat_channels_triplicates_witness :
    MelSpectrogramResizedRepeat.process (fun _ => [[(1 : ℚ)]]) (fun _ c => c)
      (1, 1) 3 [0] = [[[1]], [[1]], [[1]]] := by
  have h := (C9_repeat_channels_triplicates (fun _ => [[(1 : ℚ)]]) (fun _ c => c)
    (1, 1) (1, 1) [0]).1.1
  rw [h]
  rfl
